import Mathlib

/-!
Verification development for the matrix-bun terminal rain animation
(`src/index.ts`).  The engine's state and operations are shallowly embedded:
JavaScript 32-bit integer bit patterns become natural numbers below `2^32`,
floating-point fractions in `[0,1)` produced by the PRNG become exact
rationals `u / 2^32` (these divisions are exact in IEEE doubles, so the
rational model agrees with the source on every comparison performed), and
row coordinates become integers (`drop.y` only ever holds integer values in
the source: it is initialised to an integer and incremented by `1`).
-/

namespace MatrixBun

/-- `2^32`, the modulus of all 32-bit wraparound arithmetic in the source. -/
def U32 : ℕ := 4294967296

/-- One step of the mulberry32 generator (`src/index.ts` lines 100-108).
The state `a` is the bit pattern of the 32-bit variable `a`; the result is
the new state together with the raw unsigned 32-bit output
`(t ^ t >>> 14) >>> 0`.  `Math.imul` is multiplication mod `2^32`,
`x | 0` is reduction mod `2^32` on bit patterns, `>>>` is division by a
power of two on the unsigned pattern. -/
def mulberry32Next (a : ℕ) : ℕ × ℕ :=
  let a1 := (a + 0x6D2B79F5) % U32
  let t1 := (Nat.xor a1 (a1 / 2 ^ 15) * Nat.lor 1 a1) % U32
  let t2 := Nat.xor ((t1 + Nat.xor t1 (t1 / 2 ^ 7) * Nat.lor 61 t1 % U32) % U32) t1
  (a1, Nat.xor t2 (t2 / 2 ^ 14))

/-- Initial PRNG state from an integer seed: `seed | 0` keeps the low 32
bits of the seed (ToInt32), i.e. the bit pattern `seed mod 2^32`. -/
def mb32Init (seed : ℤ) : ℕ := (seed % (U32 : ℤ)).toNat

/-- PRNG state after `n` calls, starting from the given seed. -/
def mb32State (seed : ℤ) : ℕ → ℕ
  | 0 => mb32Init seed
  | n + 1 => (mulberry32Next (mb32State seed n)).1

/-- The value returned by a single PRNG call from state `a`:
the raw 32-bit output divided by `4294967296`, as an exact rational. -/
def toUnit (u : ℕ) : ℚ := (u : ℚ) / (U32 : ℚ)

/-- The `n`-th output (0-based) of the seeded PRNG. -/
def mb32Stream (seed : ℤ) (n : ℕ) : ℚ := toUnit (mulberry32Next (mb32State seed n)).2

/-- The glyph alphabet (`CHARS` in the source): katakana, digits, uppercase
Latin letters.  Every character is a single UTF-16 code unit, so the
JavaScript `.length` agrees with the character count. -/
def CHARS : String :=
  "アイウエオカキクケコサシスセソタチツテトナニヌネノハヒフヘホマミムメモヤユヨラリルレロワヲン0123456789ABCDEFGHIJKLMNOPQRSTUVWXYZ"

/-- `CHARS.length` in the source. -/
def CHAR_LEN : ℕ := CHARS.length

/-- JavaScript `Math.round`: round half toward positive infinity. -/
def jsRound (q : ℚ) : ℤ := ⌊q + 1 / 2⌋

/-- Normalised trail position `t = i / (TRAIL_LENGTH - 1)` of the gradient
loop. -/
def gradT (T i : ℕ) : ℚ := (i : ℚ) / ((T : ℚ) - 1)

/-- The smoothstep easing `t * t * (3 - 2 * t)` from the gradient loop. -/
def ease (t : ℚ) : ℚ := t * t * (3 - 2 * t)

/-- Red channel of gradient entry `i`: `Math.round(255 * Math.pow(1 - t, 3))`. -/
def gradR (T i : ℕ) : ℤ := jsRound (255 * (1 - gradT T i) ^ 3)

/-- Green channel of gradient entry `i`: `Math.round(255 - 180 * ease)`. -/
def gradG (T i : ℕ) : ℤ := jsRound (255 - 180 * ease (gradT T i))

/-- Blue channel of gradient entry `i`: `Math.round(255 * Math.pow(1 - t, 4))`. -/
def gradB (T i : ℕ) : ℤ := jsRound (255 * (1 - gradT T i) ^ 4)

/-- The RGB triple stored (inside an escape string) at index `i` of `COLORS`. -/
def colorTriple (T i : ℕ) : ℤ × ℤ × ℤ := (gradR T i, gradG T i, gradB T i)

/-- The gradient table `COLORS`, one triple per trail offset. -/
def COLORS (T : ℕ) : List (ℤ × ℤ × ℤ) := (List.range T).map (colorTriple T)

/-- State of one falling drop (the `Drop` interface of the source).
`chars` holds glyph indices into `CHARS`; `speed` and `nextUpdate` are the
source's floating-point fields, modelled as rationals. -/
structure Drop where
  y : ℤ
  speed : ℚ
  chars : List ℕ
  nextUpdate : ℚ
  deriving DecidableEq, Repr

/-- One buffered terminal write emitted during a render pass:
an erase (space at row/col), a gradient glyph (with its trail offset used
as colour index), or a bright-white sparkle glyph at the head. -/
inductive Write where
  | erase : ℤ → ℤ → Write
  | glyph : ℤ → ℤ → ℕ → ℕ → Write
  | sparkle : ℤ → ℤ → ℕ → Write
  deriving DecidableEq, Repr

/-- The glyph buffer filled by the loop in `createDrop`:
`chars[i] = (random() * CHAR_LEN) | 0`, drawn in index order.  Since
`random()` is exactly `u / 2^32` and `u * CHAR_LEN` fits a double, the
truncated product is `u * CHAR_LEN / 2^32` in natural division. -/
def drawChars : ℕ → ℕ → List ℕ × ℕ
  | 0, rng => ([], rng)
  | T + 1, rng =>
    let u := (mulberry32Next rng).2
    let rest := drawChars T (mulberry32Next rng).1
    (u * CHAR_LEN / U32 :: rest.1, rest.2)

/-- `createDrop(randomStart)` (`src/index.ts` lines 166-177): draw the glyph
buffer, then (only when `randomStart`) a random start offset
`-((random() * height) | 0)`, then `speed = 0.3 + random() * 0.7`;
`nextUpdate` starts at `0`.  Returns the drop and the advanced PRNG state. -/
def createDrop (T hgt : ℕ) (randomStart : Bool) (rng : ℕ) : Drop × ℕ :=
  let cs := drawChars T rng
  let yr : ℤ × ℕ :=
    if randomStart then
      (-(((mulberry32Next cs.2).2 * hgt / U32 : ℕ) : ℤ), (mulberry32Next cs.2).1)
    else (-(T : ℤ), cs.2)
  let u2 := (mulberry32Next yr.2).2
  ({ y := yr.1, speed := 3 / 10 + toUnit u2 * (7 / 10), chars := cs.1,
     nextUpdate := 0 }, (mulberry32Next yr.2).1)

/-- The advance step of `render` for one column (`src/index.ts` lines
191-203), run when `now >= drop.nextUpdate`: push an erase for row
`y - TRAIL_LENGTH` when that row is on screen, increment `y`, set
`nextUpdate = now + 100 / speed`, and when `random() < 0.3` overwrite the
glyph slot `(random() * TRAIL_LENGTH) | 0` with a fresh random glyph
(the slot index is drawn before the new glyph).  When the drop is not due,
nothing changes and no PRNG value is consumed. -/
def advanceDrop (T hgt : ℕ) (now : ℚ) (col : ℤ) (d : Drop) (rng : ℕ) :
    Drop × ℕ × List Write :=
  if d.nextUpdate ≤ now then
    let ws :=
      if 1 ≤ d.y - (T : ℤ) ∧ d.y - (T : ℤ) ≤ (hgt : ℤ) then
        [Write.erase (d.y - (T : ℤ)) col]
      else []
    let u1 := (mulberry32Next rng).2
    let r1 := (mulberry32Next rng).1
    if toUnit u1 < 3 / 10 then
      let u2 := (mulberry32Next r1).2
      let r2 := (mulberry32Next r1).1
      let u3 := (mulberry32Next r2).2
      ({ y := d.y + 1, speed := d.speed,
         chars := d.chars.set (u2 * T / U32) (u3 * CHAR_LEN / U32),
         nextUpdate := now + 100 / d.speed }, (mulberry32Next r2).1, ws)
    else
      ({ y := d.y + 1, speed := d.speed, chars := d.chars,
         nextUpdate := now + 100 / d.speed }, r1, ws)
  else (d, rng, [])

/-- The trail-drawing loop of `render` (`src/index.ts` lines 209-220),
from trail offset `i` with `k` offsets remaining: rows outside
`[1, height]` are skipped; the head (`i = 0`), when visible, consumes one
PRNG value and is drawn as a white sparkle when that value is below `0.1`;
other visible offsets are drawn with gradient colour `i`. -/
def drawCellsAux (hgt : ℕ) (col : ℤ) (d : Drop) : ℕ → ℕ → ℕ → ℕ × List Write
  | _, 0, rng => (rng, [])
  | i, k + 1, rng =>
    let row := d.y - (i : ℤ)
    if 1 ≤ row ∧ row ≤ (hgt : ℤ) then
      if i = 0 then
        let u := (mulberry32Next rng).2
        let w :=
          if toUnit u < 1 / 10 then Write.sparkle row col (d.chars.getD i 0)
          else Write.glyph row col i (d.chars.getD i 0)
        let rest := drawCellsAux hgt col d (i + 1) k (mulberry32Next rng).1
        (rest.1, w :: rest.2)
      else
        let rest := drawCellsAux hgt col d (i + 1) k rng
        (rest.1, Write.glyph row col i (d.chars.getD i 0) :: rest.2)
    else
      drawCellsAux hgt col d (i + 1) k rng

/-- Draw all `TRAIL_LENGTH` trail offsets of a drop. -/
def drawTrail (T hgt : ℕ) (col : ℤ) (d : Drop) (rng : ℕ) : ℕ × List Write :=
  drawCellsAux hgt col d 0 T rng

/-- The full per-column body of `render`: advance when due, then recycle
when `drop.y - TRAIL_LENGTH > this.height` (replacing the drop by
`createDrop(false)`), then draw the visible trail of the resulting drop. -/
def stepColumn (T hgt : ℕ) (now : ℚ) (col : ℤ) (d : Drop) (rng : ℕ) :
    Drop × ℕ × List Write :=
  let a := advanceDrop T hgt now col d rng
  let dr : Drop × ℕ :=
    if (hgt : ℤ) < a.1.y - (T : ℤ) then createDrop T hgt false a.2.1
    else (a.1, a.2.1)
  let t := drawTrail T hgt col dr.1 dr.2
  (dr.1, t.1, a.2.2 ++ t.2)

/-- Engine state (the `MatrixRain` fields): terminal dimensions, one drop
per column, the PRNG state threaded through all randomness, the last
rendered frame time, and the running flag. -/
structure EngineState where
  width : ℕ
  height : ℕ
  drops : List Drop
  rng : ℕ
  lastFrame : ℚ
  running : Bool
  deriving DecidableEq, Repr

/-- Process the columns of one frame left to right (column index ascending,
1-based terminal column), threading the PRNG state in source order. -/
def passCols (T hgt : ℕ) (now : ℚ) : ℤ → List Drop → ℕ →
    List Drop × ℕ × List Write
  | _, [], rng => ([], rng, [])
  | col, d :: ds, rng =>
    let s := stepColumn T hgt now col d rng
    let rest := passCols T hgt now (col + 1) ds s.2.1
    (s.1 :: rest.1, rest.2.1, s.2.2 ++ rest.2.2)

/-- One `render(now)` pass: update every column and collect the frame's
buffered writes (flushed as one combined write in the source). -/
def renderPass (T : ℕ) (now : ℚ) (e : EngineState) : EngineState × List Write :=
  let p := passCols T e.height now 1 e.drops e.rng
  ({ e with drops := p.1, rng := p.2.1 }, p.2.2)

/-- Create the `width` initial drops of the constructor, all with
`randomStart = true`, threading the PRNG column by column. -/
def mkDrops (T hgt : ℕ) (rng : ℕ) : ℕ → List Drop × ℕ
  | 0 => ([], rng)
  | k + 1 =>
    let c := createDrop T hgt true rng
    let rest := mkDrops T hgt c.2 k
    (c.1 :: rest.1, rest.2)

/-- The engine right after the `MatrixRain` constructor, for a seeded run:
`width` drops created with `randomStart = true`, `lastFrame = 0`,
`running = true`. -/
def initEngine (T w hgt : ℕ) (seed : ℤ) : EngineState :=
  let ds := mkDrops T hgt (mb32Init seed) w
  { width := w, height := hgt, drops := ds.1, rng := ds.2, lastFrame := 0,
    running := true }

/-- The body of the resize reallocation loop (`src/index.ts` lines 238-241)
from column `x` with `k` columns still to fill: reuse `oldDrops[x]` when it
exists, otherwise create a fresh drop with `randomStart = true`.  The
source runs this loop before updating `this.height`, so fresh drops use the
old height. -/
def rebuildAux (T hgt : ℕ) (old : List Drop) : ℕ → ℕ → ℕ → List Drop × ℕ
  | _, 0, rng => ([], rng)
  | x, k + 1, rng =>
    match old[x]? with
    | some d =>
      let rest := rebuildAux T hgt old (x + 1) k rng
      (d :: rest.1, rest.2)
    | none =>
      let c := createDrop T hgt true rng
      let rest := rebuildAux T hgt old (x + 1) k c.2
      (c.1 :: rest.1, rest.2)

/-- The resize handler (`src/index.ts` lines 232-247): when the width
changed, rebuild the column array for the new width (preserving surviving
columns, creating fresh drops for new ones, using the old height); then
update `width` and `height`. -/
def resize (T : ℕ) (newW newH : ℕ) (e : EngineState) : EngineState :=
  if newW ≠ e.width then
    let r := rebuildAux T e.height e.drops 0 newW e.rng
    { e with width := newW, height := newH, drops := r.1, rng := r.2 }
  else
    { e with width := newW, height := newH }

/-- The scheduler loop (`src/index.ts` lines 251-260) over a sequence of
observed clock readings, one per iteration: render exactly when
`now - lastFrame >= 1000 / fps`, then record `lastFrame = now`.  Returns
the final engine state, the clock times at which `render` was invoked, and
all emitted writes. -/
def runLoop (T : ℕ) (fps : ℕ) : List ℚ → EngineState → EngineState × List ℚ × List Write
  | [], e => (e, [], [])
  | now :: ts, e =>
    if 1000 / (fps : ℚ) ≤ now - e.lastFrame then
      let r := renderPass T now e
      let rest := runLoop T fps ts { r.1 with lastFrame := now }
      (rest.1, now :: rest.2.1, r.2 ++ rest.2.2)
    else runLoop T fps ts e

/-- The terminal control strings of the source. -/
def ESC : String := "\x1b["

/-- `SHOW_CURSOR` escape. -/
def SHOW_CURSOR : String := ESC ++ "?25h"

/-- `CLEAR_SCREEN` escape. -/
def CLEAR_SCREEN : String := ESC ++ "2J"

/-- `RESET` escape. -/
def RESET : String := ESC ++ "0m"

/-- `moveTo(row, col)` escape. -/
def moveTo (row col : ℕ) : String :=
  ESC ++ toString row ++ ";" ++ toString col ++ "H"

/-- Process-level view of shutdown: the `running` flag, the stream of
strings written to stdout, and the exit code once `process.exit` has run. -/
structure ProcState where
  running : Bool
  out : List String
  exitCode : Option ℕ
  deriving DecidableEq, Repr

/-- `stop()` (`src/index.ts` lines 263-267): clear the running flag, write
`RESET + SHOW_CURSOR + CLEAR_SCREEN + moveTo(1, 1)`, exit with code 0. -/
def stop (p : ProcState) : ProcState :=
  { running := false,
    out := p.out ++ [RESET ++ SHOW_CURSOR ++ CLEAR_SCREEN ++ moveTo 1 1],
    exitCode := some 0 }

/-- Delivery of one SIGINT/SIGTERM: the installed handler calls `stop()`.
Once `process.exit(0)` has run the process is gone, so a later signal finds
no process to interrupt; that terminal behaviour of `process.exit` is the
guard on `exitCode`. -/
def deliverSignal (p : ProcState) : ProcState :=
  if p.exitCode.isSome then p else stop p

def sampleEngine : EngineState :=
  { width := 1, height := 4, drops := [⟨-2, 1/2, [3, 4], 0⟩], rng := 9,
    lastFrame := 0, running := true }

theorem U32_eq : U32 = 2 ^ 32 := by norm_num [U32]

theorem U32_pos : 0 < U32 := by norm_num [U32]

theorem mulberry32Next_out_lt (a : ℕ) : (mulberry32Next a).2 < U32 := by
  simp only [mulberry32Next]
  have h1 : (Nat.xor ((a + 0x6D2B79F5) % U32) ((a + 0x6D2B79F5) % U32 / 2 ^ 15) *
      Nat.lor 1 ((a + 0x6D2B79F5) % U32)) % U32 < 2 ^ 32 :=
    U32_eq ▸ Nat.mod_lt _ U32_pos
  generalize (Nat.xor ((a + 0x6D2B79F5) % U32) ((a + 0x6D2B79F5) % U32 / 2 ^ 15) *
      Nat.lor 1 ((a + 0x6D2B79F5) % U32)) % U32 = t1 at h1
  have h2 : (t1 + Nat.xor t1 (t1 / 2 ^ 7) * Nat.lor 61 t1 % U32) % U32 < 2 ^ 32 :=
    U32_eq ▸ Nat.mod_lt _ U32_pos
  have h3 : Nat.xor ((t1 + Nat.xor t1 (t1 / 2 ^ 7) * Nat.lor 61 t1 % U32) % U32) t1 < 2 ^ 32 :=
    Nat.xor_lt_two_pow h2 h1
  generalize Nat.xor ((t1 + Nat.xor t1 (t1 / 2 ^ 7) * Nat.lor 61 t1 % U32) % U32) t1 = t2 at h3
  exact U32_eq ▸ Nat.xor_lt_two_pow h3 (lt_of_le_of_lt (Nat.div_le_self _ _) h3)

theorem toUnit_nonneg (u : ℕ) : 0 ≤ toUnit u := by
  unfold toUnit
  positivity

theorem toUnit_lt_one {u : ℕ} (h : u < U32) : toUnit u < 1 := by
  unfold toUnit
  rw [div_lt_one (by norm_num [U32])]
  exact_mod_cast h

theorem seed_low_bits_state (s : ℤ) : ∀ n, mb32State (s + 2 ^ 32) n = mb32State s n := by
  intro n
  induction n with
  | zero =>
    show mb32Init (s + 2 ^ 32) = mb32Init s
    unfold mb32Init
    have h : ((s + 2 ^ 32) % (U32 : ℤ)) = s % (U32 : ℤ) := by
      have : (U32 : ℤ) = 2 ^ 32 := by norm_num [U32]
      rw [this]
      omega
    rw [h]
  | succ k ih =>
    show (mulberry32Next (mb32State (s + 2 ^ 32) k)).1 = (mulberry32Next (mb32State s k)).1
    rw [ih]

/-- C10: `seed | 0` keeps only the low 32 bits of the seed, so seeds
congruent modulo `2^32` generate identical PRNG states and output
sequences. -/
theorem seed_low_bits (s : ℤ) (n : ℕ) :
    mb32State (s + 2 ^ 32) n = mb32State s n ∧
    mb32Stream (s + 2 ^ 32) n = mb32Stream s n := by
  refine ⟨seed_low_bits_state s n, ?_⟩
  unfold mb32Stream
  rw [seed_low_bits_state s n]

theorem runLoop_chain (T fps : ℕ) :
    ∀ (times : List ℚ) (e : EngineState),
      List.Chain (fun a b => 1000 / (fps : ℚ) ≤ b - a) e.lastFrame
        (runLoop T fps times e).2.1 := by
  intro times
  induction times with
  | nil => intro e; exact List.Chain.nil
  | cons t ts ih =>
    intro e
    by_cases h : 1000 / (fps : ℚ) ≤ t - e.lastFrame
    · simp only [runLoop, if_pos h]
      exact List.Chain.cons h (ih { (renderPass T t e).1 with lastFrame := t })
    · simp only [runLoop, if_neg h]
      exact ih e

/-- C7: consecutive render invocation times are at least `1000 / fps`
apart — the scheduler never renders early. -/
theorem frame_pacing (T fps : ℕ) (times : List ℚ) (e : EngineState) :
    List.Chain' (fun a b => 1000 / (fps : ℚ) ≤ b - a) (runLoop T fps times e).2.1 := by
  have h := runLoop_chain T fps times e
  cases hl : (runLoop T fps times e).2.1 with
  | nil => exact trivial
  | cons b l => rw [hl] at h; exact (List.chain_cons.mp h).2

theorem deliverSignal_stop (p : ProcState) : deliverSignal (stop p) = stop p := by
  simp [deliverSignal, stop]

theorem deliverSignal_iterate (p : ProcState) (hp : p.exitCode = none) :
    ∀ k, 1 ≤ k → deliverSignal^[k] p = stop p := by
  intro k hk
  induction k with
  | zero => omega
  | succ n ih =>
    rw [Function.iterate_succ_apply, show deliverSignal p = stop p by
      simp [deliverSignal, hp]]
    cases n with
    | zero => rfl
    | succ m =>
      have hiter : ∀ j, deliverSignal^[j] (stop p) = stop p := by
        intro j
        induction j with
        | zero => rfl
        | succ i ihj => rw [Function.iterate_succ_apply, deliverSignal_stop, ihj]
      exact hiter (m + 1)

/-- C8: any positive number of SIGINT/SIGTERM deliveries to a live process
runs the cleanup exactly once: the running flag is cleared, the reset,
show-cursor, clear-screen and cursor-home escapes are appended to the
output exactly once, and the process exits with code 0. -/
theorem shutdown_once (p : ProcState) (k : ℕ) (hk : 1 ≤ k) (hp : p.exitCode = none) :
    (deliverSignal^[k] p).running = false ∧
    (deliverSignal^[k] p).exitCode = some 0 ∧
    (deliverSignal^[k] p).out =
      p.out ++ [RESET ++ SHOW_CURSOR ++ CLEAR_SCREEN ++ moveTo 1 1] := by
  rw [deliverSignal_iterate p hp k hk]
  exact ⟨rfl, rfl, rfl⟩

theorem shutdown_once_props :
    (deliverSignal^[3] ⟨true, [], none⟩).running = false ∧
    (deliverSignal^[3] ⟨true, [], none⟩).exitCode = some 0 ∧
    (deliverSignal^[3] ⟨true, [], none⟩).out =
      [] ++ [RESET ++ SHOW_CURSOR ++ CLEAR_SCREEN ++ moveTo 1 1] :=
  shutdown_once ⟨true, [], none⟩ 3 (by norm_num) rfl

theorem jsRound_nonneg {q : ℚ} (h : 0 ≤ q) : 0 ≤ jsRound q :=
  Int.floor_nonneg.mpr (by linarith)

theorem jsRound_le_255 {q : ℚ} (h : q ≤ 255) : jsRound q ≤ 255 := by
  have hlt : jsRound q < 256 := by
    unfold jsRound
    rw [Int.floor_lt]
    push_cast
    linarith
  omega

theorem jsRound_mono {p q : ℚ} (h : p ≤ q) : jsRound p ≤ jsRound q :=
  Int.floor_le_floor (by linarith)

theorem gradT_nonneg {T i : ℕ} (h2 : 2 ≤ T) : 0 ≤ gradT T i := by
  unfold gradT
  have hT : (1 : ℚ) ≤ (T : ℚ) - 1 := by
    have : (2 : ℚ) ≤ (T : ℚ) := by exact_mod_cast h2
    linarith
  positivity

theorem gradT_le_one {T i : ℕ} (h2 : 2 ≤ T) (hi : i < T) : gradT T i ≤ 1 := by
  unfold gradT
  have hT : (1 : ℚ) ≤ (T : ℚ) - 1 := by
    have : (2 : ℚ) ≤ (T : ℚ) := by exact_mod_cast h2
    linarith
  rw [div_le_one (by linarith)]
  have : (i : ℚ) + 1 ≤ (T : ℚ) := by exact_mod_cast hi
  linarith

theorem ease_nonneg {t : ℚ} (h0 : 0 ≤ t) (h1 : t ≤ 1) : 0 ≤ ease t := by
  unfold ease
  nlinarith

theorem ease_le_one {t : ℚ} (h0 : 0 ≤ t) (h1 : t ≤ 1) : ease t ≤ 1 := by
  unfold ease
  nlinarith [sq_nonneg (1 - t), mul_nonneg (sq_nonneg (1 - t)) h0]

theorem pow3_bounds {t : ℚ} (h0 : 0 ≤ t) (h1 : t ≤ 1) :
    0 ≤ (1 - t) ^ 3 ∧ (1 - t) ^ 3 ≤ 1 :=
  ⟨pow_nonneg (by linarith) 3, pow_le_one₀ (by linarith) (by linarith)⟩

theorem pow4_bounds {t : ℚ} (h0 : 0 ≤ t) (h1 : t ≤ 1) :
    0 ≤ (1 - t) ^ 4 ∧ (1 - t) ^ 4 ≤ 1 :=
  ⟨pow_nonneg (by linarith) 4, pow_le_one₀ (by linarith) (by linarith)⟩

/-- C2: the gradient table entry `i` (for `trailLength ≥ 2`, `i < T`) is
exactly the triple of rounded channel formulas of the spec, with
`t = i / (T - 1)`, and every channel lies in `[0, 255]`. -/
theorem gradient_entry_spec (T i : ℕ) (h2 : 2 ≤ T) (hi : i < T) :
    (COLORS T)[i]? =
      some (jsRound (255 * (1 - (i : ℚ) / ((T : ℚ) - 1)) ^ 3),
            jsRound (255 - 180 * ((i : ℚ) / ((T : ℚ) - 1) * ((i : ℚ) / ((T : ℚ) - 1)) *
              (3 - 2 * ((i : ℚ) / ((T : ℚ) - 1))))),
            jsRound (255 * (1 - (i : ℚ) / ((T : ℚ) - 1)) ^ 4)) ∧
    0 ≤ gradR T i ∧ gradR T i ≤ 255 ∧
    0 ≤ gradG T i ∧ gradG T i ≤ 255 ∧
    0 ≤ gradB T i ∧ gradB T i ≤ 255 := by
  have h0 := gradT_nonneg (i := i) h2
  have h1 := gradT_le_one h2 hi
  have he0 := ease_nonneg h0 h1
  have he1 := ease_le_one h0 h1
  have hp3 := pow3_bounds h0 h1
  have hp4 := pow4_bounds h0 h1
  refine ⟨?_, ?_, ?_, ?_, ?_, ?_, ?_⟩
  · simp [COLORS, List.getElem?_map, List.getElem?_range hi, colorTriple,
      gradR, gradG, gradB, gradT, ease]
  · exact jsRound_nonneg (by nlinarith [hp3.1])
  · exact jsRound_le_255 (by nlinarith [hp3.2])
  · exact jsRound_nonneg (by nlinarith [he1])
  · exact jsRound_le_255 (by nlinarith [he0])
  · exact jsRound_nonneg (by nlinarith [hp4.1])
  · exact jsRound_le_255 (by nlinarith [hp4.2])

theorem gradient_entry_spec_props :
    (COLORS 3)[1]? =
      some (jsRound (255 * (1 - (1 : ℚ) / ((3 : ℚ) - 1)) ^ 3),
            jsRound (255 - 180 * ((1 : ℚ) / ((3 : ℚ) - 1) * ((1 : ℚ) / ((3 : ℚ) - 1)) *
              (3 - 2 * ((1 : ℚ) / ((3 : ℚ) - 1))))),
            jsRound (255 * (1 - (1 : ℚ) / ((3 : ℚ) - 1)) ^ 4)) ∧
    0 ≤ gradR 3 1 ∧ gradR 3 1 ≤ 255 ∧
    0 ≤ gradG 3 1 ∧ gradG 3 1 ≤ 255 ∧
    0 ≤ gradB 3 1 ∧ gradB 3 1 ≤ 255 :=
  gradient_entry_spec 3 1 (by norm_num) (by norm_num)

theorem gradT_mono {T i j : ℕ} (h2 : 2 ≤ T) (hij : i ≤ j) : gradT T i ≤ gradT T j := by
  unfold gradT
  have hT : (1 : ℚ) ≤ (T : ℚ) - 1 := by
    have : (2 : ℚ) ≤ (T : ℚ) := by exact_mod_cast h2
    linarith
  have hn : (i : ℚ) ≤ (j : ℚ) := by exact_mod_cast hij
  gcongr

/-- C9: the red and blue gradient channels are non-increasing in the trail
index, and entry 0 (the head) is full white `(255, 255, 255)`. -/
theorem gradient_monotone (T i j : ℕ) (h2 : 2 ≤ T) (hij : i ≤ j) (hj : j < T) :
    gradR T j ≤ gradR T i ∧ gradB T j ≤ gradB T i ∧
    colorTriple T 0 = (255, 255, 255) := by
  have hi : i < T := lt_of_le_of_lt hij hj
  have h0i := gradT_nonneg (i := i) h2
  have h1i := gradT_le_one h2 hi
  have h0j := gradT_nonneg (i := j) h2
  have h1j := gradT_le_one h2 hj
  have hmono := gradT_mono h2 hij
  have hsub : 1 - gradT T j ≤ 1 - gradT T i := by linarith
  have hnn : (0 : ℚ) ≤ 1 - gradT T j := by linarith
  refine ⟨?_, ?_, ?_⟩
  · exact jsRound_mono (by nlinarith [pow_le_pow_left₀ hnn hsub 3])
  · exact jsRound_mono (by nlinarith [pow_le_pow_left₀ hnn hsub 4])
  · have ht0 : gradT T 0 = 0 := by
      unfold gradT
      norm_num
    have h255 : jsRound 255 = 255 := by
      unfold jsRound
      rw [Int.floor_eq_iff] <;> norm_num
    simp only [colorTriple, gradR, gradG, gradB, ease, ht0]
    norm_num [h255]

theorem gradient_monotone_props :
    gradR 5 3 ≤ gradR 5 1 ∧ gradB 5 3 ≤ gradB 5 1 ∧
    colorTriple 5 0 = (255, 255, 255) :=
  gradient_monotone 5 1 3 (by norm_num) (by norm_num) (by norm_num)

theorem scaled_draw_lt {u n : ℕ} (hu : u < U32) (hn : 0 < n) : u * n / U32 < n := by
  rw [Nat.div_lt_iff_lt_mul U32_pos]
  calc u * n < U32 * n := mul_lt_mul_of_pos_right hu hn
    _ = n * U32 := mul_comm _ _

theorem CHAR_LEN_eq : CHAR_LEN = 82 := by decide

theorem CHAR_LEN_pos : 0 < CHAR_LEN := by rw [CHAR_LEN_eq]; norm_num

theorem drawChars_length : ∀ T rng, (drawChars T rng).1.length = T
  | 0, _ => rfl
  | T + 1, rng => by
    simp only [drawChars, List.length_cons]
    rw [drawChars_length T]

theorem drawChars_mem_lt : ∀ T rng, ∀ g ∈ (drawChars T rng).1, g < CHAR_LEN := by
  intro T
  induction T with
  | zero => intro rng g hg; simp [drawChars] at hg
  | succ n ih =>
    intro rng g hg
    simp only [drawChars, List.mem_cons] at hg
    rcases hg with h | h
    · subst h
      exact scaled_draw_lt (mulberry32Next_out_lt rng) CHAR_LEN_pos
    · exact ih _ g h

/-- C5: a drop built by `createDrop` has exactly `trailLength` glyph
indices, all below the alphabet length; its speed lies in `[0.3, 1.0)`;
its start position is `-trailLength` without `randomStart` and a value in
`(-height, 0]` with it. -/
theorem createDrop_spec (T hgt : ℕ) (rs : Bool) (rng : ℕ) (hh : 0 < hgt) :
    ((createDrop T hgt rs rng).1.chars.length = T) ∧
    (∀ g ∈ (createDrop T hgt rs rng).1.chars, g < CHAR_LEN) ∧
    (3 / 10 ≤ (createDrop T hgt rs rng).1.speed) ∧
    ((createDrop T hgt rs rng).1.speed < 1) ∧
    (rs = false → (createDrop T hgt rs rng).1.y = -(T : ℤ)) ∧
    (rs = true → -(hgt : ℤ) < (createDrop T hgt rs rng).1.y ∧
      (createDrop T hgt rs rng).1.y ≤ 0) := by
  have hchars : (createDrop T hgt rs rng).1.chars = (drawChars T rng).1 := by
    cases rs <;> rfl
  have hspeed : ∃ u, u < U32 ∧
      (createDrop T hgt rs rng).1.speed = 3 / 10 + toUnit u * (7 / 10) := by
    cases rs
    · exact ⟨_, mulberry32Next_out_lt _, rfl⟩
    · exact ⟨_, mulberry32Next_out_lt _, rfl⟩
  obtain ⟨u, hu, hs⟩ := hspeed
  have h0 := toUnit_nonneg u
  have h1 := toUnit_lt_one hu
  refine ⟨hchars ▸ drawChars_length T rng, hchars ▸ drawChars_mem_lt T rng, ?_, ?_, ?_, ?_⟩
  · rw [hs]; nlinarith
  · rw [hs]; nlinarith
  · intro h; subst h; rfl
  · intro h
    subst h
    have hy : (createDrop T hgt true rng).1.y =
        -(((mulberry32Next (drawChars T rng).2).2 * hgt / U32 : ℕ) : ℤ) := rfl
    rw [hy]
    have hb := scaled_draw_lt (mulberry32Next_out_lt (drawChars T rng).2) hh
    constructor
    · have : ((mulberry32Next (drawChars T rng).2).2 * hgt / U32 : ℤ) < (hgt : ℤ) := by
        exact_mod_cast hb
      omega
    · exact neg_nonpos.mpr (Int.natCast_nonneg _)

theorem createDrop_spec_props :
    ((createDrop 3 10 true 42).1.chars.length = 3) ∧
    (3 / 10 ≤ (createDrop 3 10 true 42).1.speed) ∧
    (-(10 : ℤ) < (createDrop 3 10 true 42).1.y ∧ (createDrop 3 10 true 42).1.y ≤ 0) := by
  have h := createDrop_spec 3 10 true 42 (by norm_num)
  exact ⟨h.1, h.2.2.1, h.2.2.2.2.2 rfl⟩

/-- C3: a column's drop is replaced exactly when, after the advance step,
`y - TRAIL_LENGTH > height`; the replacement is `createDrop(false)`, whose
position is `-trailLength`, so its trailing edge `-2 * trailLength` lies
above row 1. -/
theorem recycle_spec (T hgt : ℕ) (now : ℚ) (col : ℤ) (d : Drop) (rng : ℕ) :
    (stepColumn T hgt now col d rng).1 =
      (if (hgt : ℤ) < (advanceDrop T hgt now col d rng).1.y - (T : ℤ)
       then (createDrop T hgt false (advanceDrop T hgt now col d rng).2.1).1
       else (advanceDrop T hgt now col d rng).1) ∧
    (createDrop T hgt false rng).1.y = -(T : ℤ) ∧
    (createDrop T hgt false rng).1.y - (T : ℤ) < 1 := by
  refine ⟨?_, rfl, ?_⟩
  · simp only [stepColumn]
    split_ifs <;> rfl
  · have hy : (createDrop T hgt false rng).1.y = -(T : ℤ) := rfl
    rw [hy]
    omega

/-- C4: when a drop is due (`now >= nextUpdate`) the advance step bumps
`y` by one, reschedules at `now + 100 / speed`, keeps the speed, emits an
erase for row `y - trailLength` exactly when that row is on screen, and
mutates exactly one glyph slot (index below `trailLength`, new glyph below
the alphabet size) exactly when the PRNG draw is below `0.3`; a drop that
is not due is left completely unchanged. -/
theorem advance_spec (T hgt : ℕ) (now : ℚ) (col : ℤ) (d : Drop) (rng : ℕ)
    (hT : 0 < T) :
    (d.nextUpdate ≤ now →
      ((advanceDrop T hgt now col d rng).1.y = d.y + 1 ∧
       (advanceDrop T hgt now col d rng).1.nextUpdate = now + 100 / d.speed ∧
       (advanceDrop T hgt now col d rng).1.speed = d.speed ∧
       ((1 ≤ d.y - (T : ℤ) ∧ d.y - (T : ℤ) ≤ (hgt : ℤ)) →
         (advanceDrop T hgt now col d rng).2.2 =
           [Write.erase (d.y - (T : ℤ)) col]) ∧
       (¬(1 ≤ d.y - (T : ℤ) ∧ d.y - (T : ℤ) ≤ (hgt : ℤ)) →
         (advanceDrop T hgt now col d rng).2.2 = []) ∧
       (toUnit (mulberry32Next rng).2 < 3 / 10 →
         ∃ slot g, slot < T ∧ g < CHAR_LEN ∧
           (advanceDrop T hgt now col d rng).1.chars = d.chars.set slot g) ∧
       (¬(toUnit (mulberry32Next rng).2 < 3 / 10) →
         (advanceDrop T hgt now col d rng).1.chars = d.chars))) ∧
    (now < d.nextUpdate → advanceDrop T hgt now col d rng = (d, rng, [])) := by
  constructor
  · intro hdue
    have hws : (advanceDrop T hgt now col d rng).2.2 =
        if 1 ≤ d.y - (T : ℤ) ∧ d.y - (T : ℤ) ≤ (hgt : ℤ) then
          [Write.erase (d.y - (T : ℤ)) col]
        else [] := by
      by_cases hmut : toUnit (mulberry32Next rng).2 < 3 / 10
      · simp only [advanceDrop, if_pos hdue, if_pos hmut]
      · simp only [advanceDrop, if_pos hdue, if_neg hmut]
    by_cases hmut : toUnit (mulberry32Next rng).2 < 3 / 10
    · refine ⟨?_, ?_, ?_, fun her => by rw [hws, if_pos her],
        fun her => by rw [hws, if_neg her], fun _ => ?_, fun hc => absurd hmut hc⟩
      · simp only [advanceDrop, if_pos hdue, if_pos hmut]
      · simp only [advanceDrop, if_pos hdue, if_pos hmut]
      · simp only [advanceDrop, if_pos hdue, if_pos hmut]
      · refine ⟨(mulberry32Next (mulberry32Next rng).1).2 * T / U32,
          (mulberry32Next (mulberry32Next (mulberry32Next rng).1).1).2 * CHAR_LEN / U32,
          scaled_draw_lt (mulberry32Next_out_lt _) hT,
          scaled_draw_lt (mulberry32Next_out_lt _) CHAR_LEN_pos, ?_⟩
        simp only [advanceDrop, if_pos hdue, if_pos hmut]
    · refine ⟨?_, ?_, ?_, fun her => by rw [hws, if_pos her],
        fun her => by rw [hws, if_neg her], fun hc => absurd hc hmut, fun _ => ?_⟩
      · simp only [advanceDrop, if_pos hdue, if_neg hmut]
      · simp only [advanceDrop, if_pos hdue, if_neg hmut]
      · simp only [advanceDrop, if_pos hdue, if_neg hmut]
      · simp only [advanceDrop, if_pos hdue, if_neg hmut]
  · intro hlate
    simp only [advanceDrop, if_neg (not_le.mpr hlate)]

theorem advance_spec_props :
    (advanceDrop 2 5 0 1 ⟨-2, 1/2, [0, 1], 0⟩ 7).1.y = -2 + 1 ∧
    (advanceDrop 2 5 0 1 ⟨-2, 1/2, [0, 1], 0⟩ 7).1.nextUpdate = 0 + 100 / (1/2) ∧
    (advanceDrop 2 5 0 1 ⟨-2, 1/2, [0, 1], 0⟩ 7).2.2 = [] := by
  have h := (advance_spec 2 5 0 1 ⟨-2, 1/2, [0, 1], 0⟩ 7 (by norm_num)).1 (le_refl 0)
  exact ⟨h.1, h.2.1, h.2.2.2.2.1 (by norm_num)⟩

theorem rebuildAux_length (T hgt : ℕ) (old : List Drop) :
    ∀ k x rng, (rebuildAux T hgt old x k rng).1.length = k := by
  intro k
  induction k with
  | zero => intro x rng; rfl
  | succ n ih =>
    intro x rng
    cases hx : old[x]? with
    | some d => simp [rebuildAux, hx, ih]
    | none => simp [rebuildAux, hx, ih]

theorem rebuildAux_cons_some (T hgt : ℕ) (old : List Drop) (x n rng : ℕ) (d : Drop)
    (hd : old[x]? = some d) :
    rebuildAux T hgt old x (n + 1) rng =
      (d :: (rebuildAux T hgt old (x + 1) n rng).1,
       (rebuildAux T hgt old (x + 1) n rng).2) := by
  simp only [rebuildAux, hd]

theorem rebuildAux_cons_none (T hgt : ℕ) (old : List Drop) (x n rng : ℕ)
    (hd : old[x]? = none) :
    rebuildAux T hgt old x (n + 1) rng =
      ((createDrop T hgt true rng).1 ::
         (rebuildAux T hgt old (x + 1) n (createDrop T hgt true rng).2).1,
       (rebuildAux T hgt old (x + 1) n (createDrop T hgt true rng).2).2) := by
  simp only [rebuildAux, hd]

theorem rebuildAux_get_lt (T hgt : ℕ) (old : List Drop) :
    ∀ k x i rng, i < k → x + i < old.length →
      (rebuildAux T hgt old x k rng).1[i]? = old[x + i]? := by
  intro k
  induction k with
  | zero => intro x i rng hik _; omega
  | succ n ih =>
    intro x i rng hik hxi
    have hx : x < old.length := by omega
    have hd : old[x]? = some (old.get ⟨x, hx⟩) := by
      rw [List.getElem?_eq_some_iff]
      exact ⟨hx, rfl⟩
    rw [rebuildAux_cons_some T hgt old x n rng _ hd]
    cases i with
    | zero =>
      rw [List.getElem?_cons_zero]
      simp [hd]
    | succ m =>
      rw [List.getElem?_cons_succ]
      have := ih (x + 1) m rng (by omega) (by omega)
      rw [this]
      congr 1
      omega

theorem rebuildAux_get_ge (T hgt : ℕ) (old : List Drop) :
    ∀ k x i rng, i < k → old.length ≤ x + i →
      ∃ r, (rebuildAux T hgt old x k rng).1[i]? = some (createDrop T hgt true r).1 := by
  intro k
  induction k with
  | zero => intro x i rng hik _; omega
  | succ n ih =>
    intro x i rng hik hxi
    cases i with
    | zero =>
      have hx : old[x]? = none := by
        rw [List.getElem?_eq_none_iff]
        omega
      refine ⟨rng, ?_⟩
      rw [rebuildAux_cons_none T hgt old x n rng hx, List.getElem?_cons_zero]
    | succ m =>
      cases hx : old[x]? with
      | some d =>
        obtain ⟨r, hr⟩ := ih (x + 1) m rng (by omega) (by omega)
        refine ⟨r, ?_⟩
        rw [rebuildAux_cons_some T hgt old x n rng d hx, List.getElem?_cons_succ, hr]
      | none =>
        obtain ⟨r, hr⟩ := ih (x + 1) m (createDrop T hgt true rng).2 (by omega) (by omega)
        refine ⟨r, ?_⟩
        rw [rebuildAux_cons_none T hgt old x n rng hx, List.getElem?_cons_succ, hr]

/-- C6: a width-changing resize keeps every surviving column's drop
exactly (same entry of the drop array), truncates columns beyond the new
width (the new array has exactly `newW` entries, for any smaller or larger
positive width), and fills exactly the newly added columns with drops
created by `createDrop(true)`. -/
theorem resize_spec (T : ℕ) (newW newH : ℕ) (e : EngineState) (hw : newW ≠ e.width) :
    ((resize T newW newH e).drops.length = newW) ∧
    (∀ x, x < newW → x < e.drops.length →
      (resize T newW newH e).drops[x]? = e.drops[x]?) ∧
    (∀ x, e.drops.length ≤ x → x < newW →
      ∃ r, (resize T newW newH e).drops[x]? = some (createDrop T e.height true r).1) := by
  have hd : (resize T newW newH e).drops =
      (rebuildAux T e.height e.drops 0 newW e.rng).1 := by
    simp only [resize, if_pos hw]
  refine ⟨?_, ?_, ?_⟩
  · rw [hd]; exact rebuildAux_length T e.height e.drops newW 0 e.rng
  · intro x hxw hxl
    rw [hd]
    have := rebuildAux_get_lt T e.height e.drops newW 0 x e.rng hxw (by omega)
    simpa using this
  · intro x hxl hxw
    rw [hd]
    have := rebuildAux_get_ge T e.height e.drops newW 0 x e.rng hxw (by omega)
    simpa using this

theorem resize_spec_props :
    ((resize 2 2 4 sampleEngine).drops.length = 2) ∧
    ((resize 2 2 4 sampleEngine).drops[0]? = some ⟨-2, 1/2, [3, 4], 0⟩) ∧
    (∃ r, (resize 2 2 4 sampleEngine).drops[1]? = some (createDrop 2 4 true r).1) := by
  have h := resize_spec 2 2 4 sampleEngine (by norm_num [sampleEngine])
  refine ⟨h.1, ?_, ?_⟩
  · have := h.2.1 0 (by norm_num) (by norm_num [sampleEngine])
    simpa [sampleEngine] using this
  · have := h.2.2 1 (by norm_num [sampleEngine]) (by norm_num)
    simpa [sampleEngine] using this

/-- C1: the seeded run is a pure function of the seed and inputs — equal
seeds give equal engine states, drop trajectories and emitted frames for
every frame-time sequence — and every PRNG output lies in `[0, 1)`. -/
theorem seeded_run_deterministic (s1 s2 : ℤ) (h : s1 = s2) (T w hgt fps : ℕ)
    (times : List ℚ) (n : ℕ) :
    runLoop T fps times (initEngine T w hgt s1) =
      runLoop T fps times (initEngine T w hgt s2) ∧
    mb32Stream s1 n = mb32Stream s2 n ∧
    0 ≤ mb32Stream s1 n ∧ mb32Stream s1 n < 1 := by
  subst h
  exact ⟨rfl, rfl, toUnit_nonneg _, toUnit_lt_one (mulberry32Next_out_lt _)⟩

theorem seeded_run_deterministic_props :
    runLoop 2 30 [0, 40] (initEngine 2 1 3 42) =
      runLoop 2 30 [0, 40] (initEngine 2 1 3 42) ∧
    mb32Stream 42 0 = mb32Stream 42 0 ∧
    0 ≤ mb32Stream 42 0 ∧ mb32Stream 42 0 < 1 :=
  seeded_run_deterministic 42 42 rfl 2 1 3 30 [0, 40] 0

end MatrixBun
